import Mathlib

/-!
# Verification of the blocky list cache and resolver stations

This development gives a shallow embedding, in Lean 4, of the list cache of
`lists/list_cache.go` (binary-search matching, hosts-file line processing,
group cache construction, refresh cadence) together with spec-modelled
versions of the caching and blocking resolver stations (whose implementation
files are not part of the source tree; only their tests are), and proves or
refutes the frozen claims about them.

Go strings are byte sequences and all operations of the program compare,
index and slice bytes, so strings are embedded as `List Nat` of byte values
(`Bytes`).  All definitions are executable and all recursion is structural
(loops are given explicit fuel that provably dominates their iteration
count), so concrete runs reduce inside the kernel.
-/

namespace Blocky

/-- Go strings as byte sequences.  The sources processed by blocky are ASCII
(hosts files, domain names, IP literals), for which UTF-8 bytes and code
points coincide. -/
abbrev Bytes := List Nat

/-- Bytes of a Lean string literal (ASCII), used for concrete inputs. -/
def bytes (s : String) : Bytes := s.data.map Char.toNat

/-- Go `s1 <= s2` on strings: lexicographic byte order. -/
def bytesLe : Bytes → Bytes → Bool
  | [], _ => true
  | _ :: _, [] => false
  | a :: as, b :: bs => if a < b then true else if b < a then false else bytesLe as bs

/-- The ordering proposition carried by `bytesLe`. -/
def ByteLe (x y : Bytes) : Prop := bytesLe x y = true

instance : DecidableRel ByteLe := fun x y => inferInstanceAs (Decidable (bytesLe x y = true))

/-- Go `strings.ToLower` restricted to ASCII: uppercase bytes are shifted into
lowercase, everything else is untouched (the program only meets ASCII
domain data). -/
def lowerByte (b : Nat) : Nat := if 65 ≤ b ∧ b ≤ 90 then b + 32 else b

/-- Embedding of `strings.ToLower` (ASCII range). -/
def goToLower (s : Bytes) : Bytes := s.map lowerByte

/-- The loop of Go `sort.Search`: binary search for the least index in
`[i, j)` at which `f` flips to `true`, with explicit fuel (the real loop
halves `j - i` each round, so any fuel `≥ j - i` reproduces it). -/
def goSearch (f : Nat → Bool) : Nat → Nat → Nat → Nat
  | 0, i, _ => i
  | fuel + 1, i, j =>
    if i < j then
      if f ((i + j) / 2) then goSearch f fuel i ((i + j) / 2)
      else goSearch f fuel ((i + j) / 2 + 1) j
    else i

/-- Go `sort.SearchStrings(cache, x)`, that is `sort.Search(len(cache), fun i => cache[i] >= x)`. -/
def searchStrings (cache : List Bytes) (x : Bytes) : Nat :=
  goSearch (fun h => bytesLe x (cache.getD h [])) cache.length 0 cache.length

/-- The function `contains` of `lists/list_cache.go`: binary search for the raw domain, then
compare the found slot against the lowercased domain. -/
def contains (domain : Bytes) (cache : List Bytes) : Bool :=
  let idx := searchStrings cache domain
  if idx < cache.length then cache.getD idx [] == goToLower domain else false

/-- Go map indexing `groupCaches[g]`: a missing key yields the zero value
(`nil` slice). -/
def lookupGroup (gc : List (Bytes × List Bytes)) (g : Bytes) : List Bytes :=
  match gc.find? (fun p => p.1 == g) with
  | some p => p.2
  | none => []

/-- The method `ListCache.Match`: scan the requested groups in order and report the
first whose cache contains the domain. -/
def Match (gc : List (Bytes × List Bytes)) (domain : Bytes) : List Bytes → Bool × Bytes
  | [] => (false, [])
  | g :: rest =>
    if contains domain (lookupGroup gc g) then (true, g) else Match gc domain rest

def isSpace (b : Nat) : Bool := b == 32 || (9 ≤ b && b ≤ 13)

def goFieldsAux : Bytes → Bytes → List Bytes
  | [], cur => if cur.isEmpty then [] else [cur.reverse]
  | b :: rest, cur =>
    if isSpace b then
      if cur.isEmpty then goFieldsAux rest [] else cur.reverse :: goFieldsAux rest []
    else goFieldsAux rest (b :: cur)

/-- Go `strings.Fields`: split around runs of whitespace. -/
def goFields (s : Bytes) : List Bytes := goFieldsAux s []

/-- Go `strings.HasPrefix(line, "#")`. -/
def startsWithHash : Bytes → Bool
  | 35 :: _ => true
  | _ => false

def big : Nat := 0xFFFFFF

def dtoiLoop : Bytes → Nat → Nat → Nat × Nat × Bool
  | [], n, i => (n, i, true)
  | b :: rest, n, i =>
    if 48 ≤ b ∧ b ≤ 57 then
      let n2 := n * 10 + (b - 48)
      if n2 ≥ big then (big, i, false) else dtoiLoop rest n2 (i + 1)
    else (n, i, true)

/-- Go `net` `dtoi`: decimal to integer, returning value, bytes consumed and
success. -/
def dtoi (s : Bytes) : Nat × Nat × Bool :=
  match dtoiLoop s 0 0 with
  | (n, i, ok) => if i = 0 then (0, 0, false) else (n, i, ok)

def hexVal (b : Nat) : Option Nat :=
  if 48 ≤ b ∧ b ≤ 57 then some (b - 48)
  else if 97 ≤ b ∧ b ≤ 102 then some (b - 97 + 10)
  else if 65 ≤ b ∧ b ≤ 70 then some (b - 65 + 10)
  else none

def xtoiLoop : Bytes → Nat → Nat → Nat × Nat × Bool
  | [], n, i => (n, i, true)
  | b :: rest, n, i =>
    match hexVal b with
    | some v =>
      let n2 := n * 16 + v
      if n2 ≥ big then (0, i, false) else xtoiLoop rest n2 (i + 1)
    | none => (n, i, true)

/-- Go `net` `xtoi`: hexadecimal to integer. -/
def xtoi (s : Bytes) : Nat × Nat × Bool :=
  match xtoiLoop s 0 0 with
  | (n, i, ok) => if i = 0 then (0, 0, false) else (n, i, ok)

def parseIPv4Aux : Nat → Bool → Bytes → Bytes → Option Bytes
  | 0, _, s, acc => if s.isEmpty then some acc else none
  | k + 1, first, s, acc =>
    match s with
    | [] => none
    | _ =>
      let t : Option Bytes :=
        if first then some s
        else match s with
          | 46 :: r => some r
          | _ => none
      match t with
      | none => none
      | some t =>
        match dtoi t with
        | (n, c, ok) =>
          if ok ∧ n ≤ 0xFF then parseIPv4Aux k false (t.drop c) (acc ++ [n]) else none

/-- Go `net` `parseIPv4` (pre-1.17 semantics: leading zeros are accepted as
decimal); a success is returned in the 16-byte 4-in-6 form produced by
`IPv4()`. -/
def parseIPv4 (s : Bytes) : Option Bytes :=
  (parseIPv4Aux 4 true s []).map
    (fun p => [0, 0, 0, 0, 0, 0, 0, 0, 0, 0, 0xff, 0xff] ++ p)

/-- One pass of the `parseIPv6` main loop, with fuel (each round consumes at
least one 16-bit group, so 9 units of fuel dominate the 8 groups).  Returns
the accumulated bytes, the unconsumed input and the ellipsis position. -/
def parseIPv6Loop : Nat → Bytes → Bytes → Option Nat → Option (Bytes × Bytes × Option Nat)
  | fuel, s, acc, ell =>
    if acc.length ≥ 16 then some (acc, s, ell)
    else match fuel with
    | 0 => none
    | fuel + 1 =>
      match xtoi s with
      | (n, c, ok) =>
        if ¬ ok ∨ n > 0xFFFF then none
        else if c < s.length ∧ s.getD c 0 == 46 then
          if ell.isNone ∧ acc.length ≠ 12 then none
          else if acc.length + 4 > 16 then none
          else match parseIPv4 s with
            | none => none
            | some ip4 => some (acc ++ ip4.drop 12, [], ell)
        else
          let acc2 := acc ++ [n / 256, n % 256]
          let s2 := s.drop c
          if s2.isEmpty then some (acc2, [], ell)
          else if ¬ (s2.getD 0 0 == 58) ∨ s2.length = 1 then none
          else
            let s3 := s2.drop 1
            if s3.getD 0 0 == 58 then
              if ell.isSome then none
              else
                let s4 := s3.drop 1
                if s4.isEmpty then some (acc2, [], some acc2.length)
                else parseIPv6Loop fuel s4 acc2 (some acc2.length)
            else parseIPv6Loop fuel s3 acc2 ell

/-- Go `net` `parseIPv6`. -/
def parseIPv6 (s : Bytes) : Option Bytes :=
  match s with
  | 58 :: 58 :: rest =>
    if rest.isEmpty then some (List.replicate 16 0)
    else parseIPv6Post (parseIPv6Loop 9 rest [] (some 0))
  | _ => parseIPv6Post (parseIPv6Loop 9 s [] none)
where
  parseIPv6Post : Option (Bytes × Bytes × Option Nat) → Option Bytes
  | none => none
  | some (acc, sRem, ell) =>
    if ¬ sRem.isEmpty then none
    else if acc.length < 16 then
      match ell with
      | none => none
      | some e => some (acc.take e ++ List.replicate (16 - acc.length) 0 ++ acc.drop e)
    else if ell.isSome then none
    else some acc

def lastPercentIdx : Bytes → Nat → Option Nat → Option Nat
  | [], _, best => best
  | b :: rest, k, best => lastPercentIdx rest (k + 1) (if b == 37 then some k else best)

/-- Go `net` `splitHostZone`: drop a `%zone` suffix (the `%` must not be the
first byte). -/
def splitHostZone (s : Bytes) : Bytes :=
  match lastPercentIdx s 0 none with
  | some i => if i > 0 then s.take i else s
  | none => s

def parseIPDispatch : Bytes → Option Bool
  | [] => none
  | 46 :: _ => some true
  | 58 :: _ => some false
  | _ :: rest => parseIPDispatch rest

/-- Go `net.ParseIP`: the first `.` or `:` decides between the IPv4 and IPv6
parser; neither present means failure. -/
def parseIP (s : Bytes) : Option Bytes :=
  match parseIPDispatch s with
  | some true => parseIPv4 s
  | some false => parseIPv6 (splitHostZone s)
  | none => none

def uitoaAux : Nat → Nat → Bytes
  | 0, _ => []
  | fuel + 1, n => if n < 10 then [48 + n] else uitoaAux fuel (n / 10) ++ [48 + n % 10]

/-- Go `net` `uitoa`: decimal rendering. -/
def uitoa (n : Nat) : Bytes := uitoaAux (n + 1) n

def hexDigitB (v : Nat) : Nat := if v < 10 then 48 + v else 87 + v

/-- Go `net` `appendHex`: lowercase hex without leading zeros (`0` for 0). -/
def appendHex (n : Nat) : Bytes :=
  if n = 0 then [48]
  else (List.range 8).reverse.filterMap (fun j =>
    let v := n / 16 ^ j
    if v > 0 then some (hexDigitB (v % 16)) else none)

/-- Go `net` `IP.To4` (16-byte mapped form check). -/
def ipTo4 (p : Bytes) : Option Bytes :=
  if p.length = 4 then some p
  else if p.length = 16 ∧ (p.take 10).all (fun b => b == 0) ∧
      p.getD 10 0 == 255 ∧ p.getD 11 0 == 255 then some (p.drop 12)
  else none

def dotted (q : Bytes) : Bytes :=
  uitoa (q.getD 0 0) ++ [46] ++ uitoa (q.getD 1 0) ++ [46] ++
    uitoa (q.getD 2 0) ++ [46] ++ uitoa (q.getD 3 0)

def zeroRunEnd (p : Bytes) : Nat → Nat → Nat
  | 0, j => j
  | fuel + 1, j =>
    if j < 16 ∧ p.getD j 0 == 0 ∧ p.getD (j + 1) 0 == 0 then zeroRunEnd p fuel (j + 2)
    else j

/-- The zero-run scan of `IP.String`: the longest (leftmost) run of zero
16-bit groups, as the pair `(e0, e1)` with `-1` meaning none. -/
def findZeroRun (p : Bytes) : Nat → Nat → Int → Int → Int × Int
  | 0, _, e0, e1 => (e0, e1)
  | fuel + 1, i, e0, e1 =>
    if i < 16 then
      let j := zeroRunEnd p 9 i
      if j > i ∧ (j : Int) - (i : Int) > e1 - e0 then
        findZeroRun p fuel (j + 2) (i : Int) (j : Int)
      else findZeroRun p fuel (i + 2) e0 e1
    else (e0, e1)

def v6PrintAux (p : Bytes) (e0 e1 : Int) : Nat → Nat → Bytes
  | 0, _ => []
  | fuel + 1, i =>
    if i < 16 then
      if (i : Int) = e0 then
        58 :: 58 :: (if e1 ≥ 16 then [] else
          appendHex (p.getD e1.toNat 0 * 256 + p.getD (e1.toNat + 1) 0) ++
            v6PrintAux p e0 e1 fuel (e1.toNat + 2))
      else
        (if i > 0 then [58] else []) ++
          appendHex (p.getD i 0 * 256 + p.getD (i + 1) 0) ++ v6PrintAux p e0 e1 fuel (i + 2)
    else []

def hexStringBytes (b : Bytes) : Bytes :=
  (b.map (fun tn => [hexDigitB (tn / 16), hexDigitB (tn % 16)])).flatten

/-- Go `net` `IP.String`: dotted decimal for (mapped) v4, canonical
lowercase-hex `::`-compressed form for v6. -/
def ipString (p : Bytes) : Bytes :=
  if p.isEmpty then bytes "<nil>"
  else match ipTo4 p with
  | some q => dotted q
  | none =>
    if ¬ p.length = 16 then 63 :: hexStringBytes p
    else
      let r := findZeroRun p 10 0 (-1) (-1)
      let e0 := if r.2 - r.1 ≤ 2 then (-1 : Int) else r.1
      let e1 := if r.2 - r.1 ≤ 2 then (-1 : Int) else r.2
      v6PrintAux p e0 e1 10 0

/-- The function `processLine`: keep the last whitespace-separated token; an IP literal is
canonicalised by `ParseIP`/`String`, anything else is lowercased.  A line
with no tokens yields the empty entry. -/
def processLine (line : Bytes) : Bytes :=
  let parts := goFields line
  if parts.length > 0 then
    let host := parts.getD (parts.length - 1) []
    match parseIP host with
    | some ip => ipString ip
    | none => goToLower host
  else []

/-- The scan loop of `processFile`: every line not starting with `#` is
processed by `processLine` and contributes its result. -/
def processFile (lines : List Bytes) : List Bytes :=
  (lines.filter (fun l => !(startsWithHash l))).map processLine

def dedupKeys {α : Type} [BEq α] : List α → List α → List α
  | _, [] => []
  | seen, e :: rest =>
    if seen.contains e then dedupKeys seen rest
    else e :: dedupKeys (e :: seen) rest

/-- The function `createCacheForGroup`, applied to the line lists fetched from the
group's sources (a failed source simply contributes no list): merge,
dedup, sort.  Since the deduped entries are pairwise distinct, the sorted
result is independent of the arrival order of the per-source results, so
insertion sort faithfully models `sort.Strings`. -/
def createCacheForGroup (files : List (List Bytes)) : List Bytes :=
  List.insertionSort ByteLe (dedupKeys [] (files.map processFile).flatten)

/-- The method `refresh`: rebuild every group's vector from its sources. -/
def refreshGroups (g2l : List (Bytes × List (List Bytes))) : List (Bytes × List Bytes) :=
  g2l.map (fun p => (p.1, createCacheForGroup p.2))

/-! ## Refresh cadence (`NewListCache` / `periodicUpdate`) -/

def nanosPerMinute : Int := 60000000000

def defaultRefreshPeriodNs : Int := 14400000000000

/-- Signed 64-bit wrap-around, the semantics of Go's `time.Duration`
(`int64`) multiplication (the literals are `2^63` and `2^64`). -/
def int64wrap (x : Int) : Int :=
  (x + 9223372036854775808) % 18446744073709551616 - 9223372036854775808

/-- The constructor `NewListCache`: `p := time.Duration(refreshPeriod) * time.Minute`,
with `0` replaced by the 4-hour default. -/
def effectiveRefreshPeriod (rp : Int) : Int :=
  if rp = 0 then defaultRefreshPeriodNs else int64wrap (rp * nanosPerMinute)

/-- The loop `periodicUpdate` runs its ticker only for a positive period. -/
def periodicRefreshEnabled (rp : Int) : Bool := effectiveRefreshPeriod rp > 0

def specTrim (s : Bytes) : Bytes :=
  ((s.dropWhile isSpace).reverse.dropWhile isSpace).reverse

/-- Spec wording: canonical form of a kept token — canonical IP text if it
parses as an IP, lowercased hostname otherwise. -/
def specCanonical (tok : Bytes) : Bytes :=
  match parseIP tok with
  | some ip => ipString ip
  | none => goToLower tok

/-- Spec wording for a single line: "trim; skip if empty or begins with `#`;
tokenize on whitespace and keep the last token", then canonicalise. -/
def specLineEntries (line : Bytes) : List Bytes :=
  let t := specTrim line
  if t.isEmpty || startsWithHash t then []
  else
    match (goFields t).getLast? with
    | some tok => [specCanonical tok]
    | none => []

/-- Split a domain at `.` (label decomposition). -/
def splitLabels : Bytes → List Bytes
  | [] => [[]]
  | 46 :: rest => [] :: splitLabels rest
  | b :: rest =>
    match splitLabels rest with
    | [] => [[b]]
    | x :: xs => (b :: x) :: xs

def joinDots : List Bytes → Bytes
  | [] => []
  | [x] => x
  | x :: rest => x ++ 46 :: joinDots rest

/-- The proper parent label-suffixes of a domain: `foo.example.com` yields
`example.com` and `com`. -/
def properSuffixDomains (d : Bytes) : List Bytes :=
  ((splitLabels d).tails.drop 1).filterMap
    (fun ls => if ls.isEmpty then none else some (joinDots ls))

/-- Spec wording of domain-against-group matching (§4.3): the exact
lowercased qname is in the set, or any proper parent label-suffix is. -/
def specDomainMatches (set : List Bytes) (domain : Bytes) : Bool :=
  let d := goToLower domain
  set.contains d || (properSuffixDomains d).any (fun x => set.contains x)

/-! ## Spec-modelled resolver stations

The caching and blocking resolver implementations are not part of the
source tree (only their tests are), so the following definitions are
modelled from the spec, as stated in each doc comment. -/

inductive RType where
  | RESOLVED
  | CACHED
  | BLOCKED
deriving DecidableEq

inductive RRType where
  | A
  | AAAA
  | CNAME
  | MX
deriving DecidableEq

structure RR where
  name : Bytes
  ttl : Int
  rtype : RRType
  rdata : Bytes
deriving DecidableEq

structure Msg where
  rcode : Nat
  answers : List RR
deriving DecidableEq

structure Response where
  res : Msg
  rtype : RType
  reason : String
deriving DecidableEq

def RcodeSuccess : Nat := 0

def RcodeNameError : Nat := 3

/-! ### Caching station (modelled from the spec) -/

structure CachingConfig where
  minCachingTime : Int
  maxCachingTime : Int
deriving DecidableEq

structure CacheEntry where
  msg : Msg
  expiresAt : Int
deriving DecidableEq

abbrev CacheKey := Bytes × RRType

abbrev CacheMap := List (CacheKey × CacheEntry)

def lookupCache (m : CacheMap) (k : CacheKey) : Option CacheEntry :=
  match m.find? (fun p => p.1 == k) with
  | some p => some p.2
  | none => none

/-- Modelled from the spec: minimum TTL across the RRs of the answer
section. -/
def minAnswerTTL (msg : Msg) : Int :=
  match msg.answers with
  | [] => 0
  | a :: rest => rest.foldl (fun acc r => min acc r.ttl) a.ttl

/-- Modelled from the spec: the TTL used to cache an NXDOMAIN answer.  The
spec requires a fixed positive window but does not pin the value; thirty
minutes is used here and no claim depends on the exact choice. -/
def negCacheTTLSeconds : Int := 1800

/-- Modelled from the spec: `sttl = clamp(rttl, MinCachingTime*60,
MaxCachingTime*60)`, a nonpositive configured bound meaning "no clamp". -/
def sttlOf (cfg : CachingConfig) (rttl : Int) : Int :=
  let t1 := if 0 < cfg.minCachingTime ∧ rttl < cfg.minCachingTime * 60 then
    cfg.minCachingTime * 60 else rttl
  if 0 < cfg.maxCachingTime ∧ cfg.maxCachingTime * 60 < t1 then
    cfg.maxCachingTime * 60 else t1

def withTTL (msg : Msg) (t : Int) : Msg :=
  { rcode := msg.rcode, answers := msg.answers.map (fun r => { r with ttl := t }) }

/-- Modelled from the spec: a hit is served as a copy with every answer TTL
set to the remaining whole seconds, `RType=CACHED`, and reason
`"CACHED NEGATIVE"` iff the stored message is NXDOMAIN. -/
def cachedResponse (msg : Msg) (remaining : Int) : Response :=
  { res := withTTL msg remaining
    rtype := RType.CACHED
    reason := if msg.rcode = RcodeNameError then "CACHED NEGATIVE" else "" }

/-- Modelled from the spec: one `Resolve` step of the caching station.  The
chain successor is modelled by the response `next` it would give; time is in
milliseconds.  Returns the response, the new cache state and the number of
upstream calls made (0 or 1). -/
def resolveCaching (cfg : CachingConfig) (next : Response) (st : CacheMap) (now : Int)
    (qname : Bytes) (qt : RRType) : Response × CacheMap × Nat :=
  if ¬ (qt = RRType.A ∨ qt = RRType.AAAA) then (next, st, 1)
  else if cfg.maxCachingTime < 0 then (next, st, 1)
  else
    let key : CacheKey := (goToLower qname, qt)
    let hit : Option CacheEntry :=
      match lookupCache st key with
      | some e => if (e.expiresAt - now) / 1000 > 0 then some e else none
      | none => none
    match hit with
    | some e => (cachedResponse e.msg ((e.expiresAt - now) / 1000), st, 0)
    | none =>
      if next.res.rcode = RcodeSuccess ∨ next.res.rcode = RcodeNameError then
        let rttl := if next.res.rcode = RcodeNameError then negCacheTTLSeconds
          else minAnswerTTL next.res
        let sttl := sttlOf cfg rttl
        let msg2 := withTTL next.res sttl
        ({ res := msg2, rtype := next.rtype, reason := next.reason },
          (key, { msg := msg2, expiresAt := now + sttl * 1000 }) :: st, 1)
      else (next, st, 1)

/-! ### Blocking station (modelled from the spec) -/

inductive BlockType where
  | ZeroIP
  | NxDomain
deriving DecidableEq

structure BlockingConfig where
  blackLists : List (String × List Bytes)
  whiteLists : List (String × List Bytes)
  clientGroupsBlock : List (String × List String)
  blockType : BlockType

structure BlockingState where
  enabled : Bool
  autoReenableAt : Option Int
deriving DecidableEq

def lookupList (m : List (String × List Bytes)) (g : String) : List Bytes :=
  match m.find? (fun p => p.1 == g) with
  | some p => p.2
  | none => []

/-- Modelled from the spec: the group set of a request — union of the groups
of every matching selector (display names and the exact client IP; CIDR
selectors are not needed by any claim and are omitted) plus the `default`
group. -/
def groupsFor (cgb : List (String × List String)) (clientNames : List String)
    (clientIP : String) : List String :=
  dedupKeys []
    ((cgb.filterMap (fun p =>
        if clientNames.contains p.1 || p.1 == clientIP then some p.2 else none)).flatten
      ++ (match cgb.find? (fun p => p.1 == "default") with
          | some p => p.2
          | none => []))

/-- Modelled from the spec: the synthesized BLOCKED message. -/
def blockedMsg (bt : BlockType) (qname : Bytes) (qt : RRType) : Msg :=
  match bt with
  | BlockType.ZeroIP =>
    { rcode := RcodeSuccess
      answers := [{ name := qname, ttl := 21600, rtype := qt
                    rdata := if qt = RRType.A then bytes "0.0.0.0" else bytes "::" }] }
  | BlockType.NxDomain => { rcode := RcodeNameError, answers := [] }

def anyWhiteMatch (cfg : BlockingConfig) (gs : List String) (qname : Bytes) : Bool :=
  gs.any (fun g => specDomainMatches (lookupList cfg.whiteLists g) qname)

def firstBlackGroup (cfg : BlockingConfig) (gs : List String) (qname : Bytes) : Option String :=
  gs.find? (fun g => specDomainMatches (lookupList cfg.blackLists g) qname)

def hasDefinedLists (m : List (String × List Bytes)) (gs : List String) : Bool :=
  gs.any (fun g => (m.find? (fun p => p.1 == g)).isSome)

/-- Modelled from the spec: post-resolution inspection of the answer
section — a whitelisted answer IP passes the upstream response through, a
blacklisted A/AAAA address or CNAME target replaces it with a synthesized
BLOCKED answer for the original qname. -/
def findBlockHit (cfg : BlockingConfig) (gs : List String) : List RR → Option (Bool × String)
  | [] => none
  | r :: rest =>
    if r.rtype = RRType.A ∨ r.rtype = RRType.AAAA ∨ r.rtype = RRType.CNAME then
      match gs.find? (fun g => specDomainMatches (lookupList cfg.blackLists g) r.rdata) with
      | some g => some (r.rtype = RRType.A ∨ r.rtype = RRType.AAAA, g)
      | none => findBlockHit cfg gs rest
    else findBlockHit cfg gs rest

def postInspect (cfg : BlockingConfig) (gs : List String) (next : Response)
    (qname : Bytes) (qt : RRType) : Response :=
  let whiteIPHit := next.res.answers.any (fun r =>
    (r.rtype = RRType.A ∨ r.rtype = RRType.AAAA) &&
      gs.any (fun g => specDomainMatches (lookupList cfg.whiteLists g) r.rdata))
  if whiteIPHit then next
  else
    match findBlockHit cfg gs next.res.answers with
    | some (isIP, g) =>
      { res := blockedMsg cfg.blockType qname qt
        rtype := RType.BLOCKED
        reason := (if isIP then "BLOCKED IP (" else "BLOCKED CNAME (") ++ g ++ ")" }
    | none => next

/-- Modelled from the spec: the request-path re-enable check — at or after
`autoReenableAt`, blocking is switched back on. -/
def autoEnable (st : BlockingState) (now : Int) : BlockingState :=
  if st.enabled then st
  else match st.autoReenableAt with
    | some t => if now ≥ t then { enabled := true, autoReenableAt := none } else st
    | none => st

/-- Modelled from the spec: one `Resolve` step of the blocking station.  The
chain successor is modelled by the response `next` it would give. -/
def resolveBlocking (cfg : BlockingConfig) (st : BlockingState) (now : Int)
    (next : Response) (clientNames : List String) (clientIP : String)
    (qname : Bytes) (qt : RRType) : Response × BlockingState :=
  let st2 : BlockingState := autoEnable st now
  if ¬ st2.enabled then (next, st2)
  else if ¬ (qt = RRType.A ∨ qt = RRType.AAAA) then (next, st2)
  else
    let gs := groupsFor cfg.clientGroupsBlock clientNames clientIP
    if anyWhiteMatch cfg gs qname then (next, st2)
    else
      match firstBlackGroup cfg gs qname with
      | some g =>
        ({ res := blockedMsg cfg.blockType qname qt
           rtype := RType.BLOCKED
           reason := "BLOCKED (" ++ g ++ ")" }, st2)
      | none =>
        if hasDefinedLists cfg.whiteLists gs ∧ ¬ hasDefinedLists cfg.blackLists gs then
          ({ res := blockedMsg cfg.blockType qname qt
             rtype := RType.BLOCKED
             reason := "BLOCKED (WHITELIST ONLY)" }, st2)
        else (postInspect cfg gs next qname qt, st2)

/-- Modelled from the spec: the `/api/blocking/disable` handler.  The Go
duration parsing (`time.ParseDuration`) is abstracted as the function
argument `parseDur` (milliseconds on success); the handler returns the HTTP
status and the new blocking state. -/
def apiBlockingDisable (parseDur : String → Option Int) (now : Int)
    (durParam : Option String) (st : BlockingState) : Nat × BlockingState :=
  match durParam with
  | none => (200, { enabled := false, autoReenableAt := none })
  | some s =>
    match parseDur s with
    | none => (400, st)
    | some d => (200, { enabled := false, autoReenableAt := some (now + d) })

/-- C2 (amended): the entry a line contributes, per the amended reading —
no trimming, `#` only recognised at the first byte, tokenless lines
contributing the empty entry. -/
def amendedLineEntry (line : Bytes) : Bytes :=
  match (goFields line).getLast? with
  | some tok => specCanonical tok
  | none => []

/-! ## Proofs -/

theorem bytesLe_refl (x : Bytes) : bytesLe x x = true := by
  induction x with
  | nil => rfl
  | cons a as ih => simp [bytesLe, ih]

theorem bytesLe_total (x y : Bytes) : bytesLe x y = true ∨ bytesLe y x = true := by
  induction x generalizing y with
  | nil => exact Or.inl rfl
  | cons a as ih =>
    cases y with
    | nil => exact Or.inr rfl
    | cons b bs =>
      by_cases hab : a < b
      · exact Or.inl (by simp [bytesLe, hab])
      · by_cases hba : b < a
        · exact Or.inr (by simp [bytesLe, hba])
        · have hfl : ¬ b < a := hba
          rcases ih bs with h | h
          · exact Or.inl (by simp [bytesLe, hab, hba, h])
          · exact Or.inr (by simp [bytesLe, hab, hba, h])

theorem bytesLe_trans {x y z : Bytes} (h1 : bytesLe x y = true) (h2 : bytesLe y z = true) :
    bytesLe x z = true := by
  induction x generalizing y z with
  | nil => rfl
  | cons a as ih =>
    cases y with
    | nil => simp [bytesLe] at h1
    | cons b bs =>
      cases z with
      | nil => simp [bytesLe] at h2
      | cons c cs =>
        simp only [bytesLe] at h1 h2 ⊢
        by_cases hab : a < b <;> by_cases hbc : b < c
        · simp [show a < c by omega]
        · by_cases hcb : c < b
          · simp [hbc, hcb] at h2
          · have : b = c := by omega
            subst this
            simp [hab]
        · have hba : ¬ b < a := by
            intro h
            simp [hab, h] at h1
          have : a = b := by omega
          subst this
          simp [hbc]
        · by_cases hcb : c < b
          · simp [hbc, hcb] at h2
          · by_cases hba : b < a
            · simp [hab, hba] at h1
            · have hb : a = b := by omega
              have hc : b = c := by omega
              subst hb
              subst hc
              simp [hab] at h1 ⊢
              simp [hbc] at h2
              exact ih h1 h2

theorem bytesLe_antisymm {x y : Bytes} (h1 : bytesLe x y = true) (h2 : bytesLe y x = true) :
    x = y := by
  induction x generalizing y with
  | nil =>
    cases y with
    | nil => rfl
    | cons b bs => simp [bytesLe] at h2
  | cons a as ih =>
    cases y with
    | nil => simp [bytesLe] at h1
    | cons b bs =>
      simp only [bytesLe] at h1 h2
      by_cases hab : a < b
      · exfalso
        simp [show ¬ b < a by omega, hab] at h2
      · by_cases hba : b < a
        · simp [hab, hba] at h1
        · have : a = b := by omega
          subst this
          simp [hab] at h1 h2
          exact congrArg (a :: ·) (ih h1 h2)

instance : IsTotal Bytes ByteLe := ⟨fun x y => bytesLe_total x y⟩

instance : IsTrans Bytes ByteLe := ⟨fun _ _ _ h1 h2 => bytesLe_trans h1 h2⟩

instance : IsAntisymm Bytes ByteLe := ⟨fun _ _ h1 h2 => bytesLe_antisymm h1 h2⟩

instance : IsRefl Bytes ByteLe := ⟨fun x => bytesLe_refl x⟩

theorem goSearch_le {f : Nat → Bool} :
    ∀ fuel i j, i ≤ j → i ≤ goSearch f fuel i j ∧ goSearch f fuel i j ≤ j := by
  intro fuel
  induction fuel with
  | zero => intro i j h; exact ⟨Nat.le_refl i, h⟩
  | succ fuel ih =>
    intro i j h
    simp only [goSearch]
    by_cases hij : i < j
    · cases hf : f ((i + j) / 2) with
      | true =>
        have := ih i ((i + j) / 2) (by omega)
        simp [hij, hf]
        omega
      | false =>
        have := ih ((i + j) / 2 + 1) j (by omega)
        simp [hij, hf]
        omega
    · simp [hij]
      omega

theorem goSearch_lower {f : Nat → Bool} :
    ∀ fuel i j, (∀ a b, a ≤ b → b < j → f a = true → f b = true) →
      ∀ k, i ≤ k → k < goSearch f fuel i j → f k = false := by
  intro fuel
  induction fuel with
  | zero => intro i j _ k hk1 hk2; simp only [goSearch] at hk2; omega
  | succ fuel ih =>
    intro i j hmono k hk1 hk2
    simp only [goSearch] at hk2
    by_cases hij : i < j
    · cases hf : f ((i + j) / 2) with
      | true =>
        simp [hij, hf] at hk2
        exact ih i ((i + j) / 2)
          (fun a b hab hbj hfa => hmono a b hab (by omega) hfa) k hk1 hk2
      | false =>
        simp [hij, hf] at hk2
        by_cases hkm : k ≤ (i + j) / 2
        · cases hfk : f k with
          | false => rfl
          | true =>
            have hcontra := hmono k ((i + j) / 2) hkm (by omega) hfk
            rw [hf] at hcontra
            exact absurd hcontra (by decide)
        · exact ih ((i + j) / 2 + 1) j hmono k (by omega) hk2
    · simp [hij] at hk2
      omega

theorem goSearch_upper {f : Nat → Bool} :
    ∀ fuel i j, j - i ≤ fuel → goSearch f fuel i j < j → f (goSearch f fuel i j) = true := by
  intro fuel
  induction fuel with
  | zero => intro i j hfuel hlt; simp only [goSearch] at hlt; omega
  | succ fuel ih =>
    intro i j hfuel hlt
    simp only [goSearch] at hlt ⊢
    by_cases hij : i < j
    · cases hf : f ((i + j) / 2) with
      | true =>
        simp [hij, hf] at hlt ⊢
        by_cases hend : goSearch f fuel i ((i + j) / 2) < (i + j) / 2
        · exact ih i ((i + j) / 2) (by omega) hend
        · have hb := goSearch_le (f := f) fuel i ((i + j) / 2) (by omega)
          have heq : goSearch f fuel i ((i + j) / 2) = (i + j) / 2 := by omega
          rw [heq]
          exact hf
      | false =>
        simp [hij, hf] at hlt ⊢
        exact ih ((i + j) / 2 + 1) j (by omega) hlt
    · simp [hij] at hlt

theorem searchStrings_le_length (cache : List Bytes) (x : Bytes) :
    searchStrings cache x ≤ cache.length :=
  (goSearch_le cache.length 0 cache.length (Nat.zero_le _)).2

theorem getD_eq_get {α : Type} (l : List α) (d : α) :
    ∀ k (h : k < l.length), l.getD k d = l.get ⟨k, h⟩ := by
  induction l with
  | nil => intro k h; simp at h
  | cons a as ih =>
    intro k h
    cases k with
    | zero => rfl
    | succ k => simpa [List.getD] using ih k (by simpa using h)

theorem sorted_getD_le {l : List Bytes} (hs : List.Sorted ByteLe l) :
    ∀ k m, k ≤ m → m < l.length → bytesLe (l.getD k []) (l.getD m []) = true := by
  intro k m hkm hm
  rw [getD_eq_get l [] k (by omega), getD_eq_get l [] m hm]
  exact hs.rel_get_of_le (by exact hkm)

/-- If `contains` answers `true`, the lowercased domain really is an element
of the cache vector (no sortedness needed). -/
theorem contains_true_mem {d : Bytes} {cache : List Bytes}
    (h : contains d cache = true) : goToLower d ∈ cache := by
  unfold contains at h
  by_cases hidx : searchStrings cache d < cache.length
  · simp only [hidx, if_true, beq_iff_eq] at h
    rw [getD_eq_get cache [] _ hidx] at h
    rw [← h]
    exact cache.get_mem _ _
  · simp [hidx] at h

/-- On a sorted cache, an already-lowercase domain that is an element of the
cache is found by `contains`. -/
theorem mem_contains_sorted {d : Bytes} {cache : List Bytes}
    (hs : List.Sorted ByteLe cache) (hd : goToLower d = d) (hm : d ∈ cache) :
    contains d cache = true := by
  obtain ⟨⟨k, hk⟩, hget⟩ := List.mem_iff_get.mp hm
  have hmono : ∀ a b, a ≤ b → b < cache.length →
      bytesLe d (cache.getD a []) = true → bytesLe d (cache.getD b []) = true :=
    fun a b hab hb hfa => bytesLe_trans hfa (sorted_getD_le hs a b hab hb)
  have hfk : bytesLe d (cache.getD k []) = true := by
    rw [getD_eq_get cache [] k hk, hget]
    exact bytesLe_refl d
  have hrk : searchStrings cache d ≤ k := by
    by_contra hgt
    have hlt : k < goSearch (fun h => bytesLe d (cache.getD h [])) cache.length 0 cache.length :=
      Nat.lt_of_not_le hgt
    have hlow := goSearch_lower (f := fun h => bytesLe d (cache.getD h []))
      cache.length 0 cache.length (fun a b hab hb hfa => hmono a b hab hb hfa)
      k (Nat.zero_le k) hlt
    have hlow2 : bytesLe d (cache.getD k []) = false := hlow
    rw [hlow2] at hfk
    exact absurd hfk (by decide)
  have hrlen : searchStrings cache d < cache.length := Nat.lt_of_le_of_lt hrk hk
  have hrlen2 : goSearch (fun h => bytesLe d (cache.getD h [])) cache.length 0 cache.length <
      cache.length := hrlen
  have hfr : bytesLe d (cache.getD (searchStrings cache d) []) = true :=
    goSearch_upper (f := fun h => bytesLe d (cache.getD h []))
      cache.length 0 cache.length (by omega) hrlen2
  have hle2 : bytesLe (cache.getD (searchStrings cache d) []) d = true := by
    have hsk := sorted_getD_le hs (searchStrings cache d) k hrk hk
    rwa [getD_eq_get cache [] k hk, hget] at hsk
  have heq : cache.getD (searchStrings cache d) [] = d := bytesLe_antisymm hle2 hfr
  unfold contains
  simp only [hrlen, if_true, beq_iff_eq, heq, hd]

/-- The function `contains`, on a sorted cache and an already-lowercase domain, is exactly
list membership. -/
theorem contains_iff_mem {d : Bytes} {cache : List Bytes}
    (hs : List.Sorted ByteLe cache) (hd : goToLower d = d) :
    contains d cache = true ↔ d ∈ cache :=
  ⟨fun h => hd ▸ contains_true_mem h, fun h => mem_contains_sorted hs hd h⟩

theorem Match_true_iff (gc : List (Bytes × List Bytes)) (d : Bytes) (gs : List Bytes) :
    (Match gc d gs).1 = true ↔ ∃ g ∈ gs, contains d (lookupGroup gc g) = true := by
  induction gs with
  | nil => simp [Match]
  | cons g rest ih =>
    cases hgb : contains d (lookupGroup gc g) with
    | true =>
      have hL : (Match gc d (g :: rest)).1 = true := by simp [Match, hgb]
      constructor
      · intro _
        exact ⟨g, List.mem_cons_self g rest, hgb⟩
      · intro _
        exact hL
    | false =>
      have hL : Match gc d (g :: rest) = Match gc d rest := by simp [Match, hgb]
      rw [hL, ih]
      constructor
      · rintro ⟨g2, hg2, hc⟩
        exact ⟨g2, List.mem_cons_of_mem g hg2, hc⟩
      · rintro ⟨g2, hg2, hc⟩
        rcases List.mem_cons.mp hg2 with heq | hmem
        · subst heq
          rw [hgb] at hc
          exact absurd hc (by decide)
        · exact ⟨g2, hmem, hc⟩

theorem Match_eq_false (gc : List (Bytes × List Bytes)) (d : Bytes) (gs : List Bytes)
    (h : ∀ g ∈ gs, contains d (lookupGroup gc g) = false) : Match gc d gs = (false, []) := by
  induction gs with
  | nil => rfl
  | cons g rest ih =>
    have hg := h g (List.mem_cons_self g rest)
    have hL : Match gc d (g :: rest) = Match gc d rest := by simp [Match, hg]
    rw [hL]
    exact ih fun g2 hg2 => h g2 (List.mem_cons_of_mem g hg2)

/-! ## Invariants of the produced group caches -/

theorem lowerByte_of_not_upper {b : Nat} (h : b < 65 ∨ 90 < b) : lowerByte b = b :=
  if_neg (by omega)

theorem lowerByte_idem (b : Nat) : lowerByte (lowerByte b) = lowerByte b := by
  by_cases h : 65 ≤ b ∧ b ≤ 90
  · have h1 : lowerByte b = b + 32 := if_pos h
    rw [h1]
    exact lowerByte_of_not_upper (by omega)
  · have h1 : lowerByte b = b := if_neg h
    rw [h1]
    exact h1

theorem goToLower_eq_self : ∀ {s : Bytes}, (∀ b ∈ s, lowerByte b = b) → goToLower s = s
  | [], _ => rfl
  | a :: as, h => by
    have htail := goToLower_eq_self (s := as) (fun b hb => h b (List.mem_cons_of_mem a hb))
    simp only [goToLower, List.map_cons] at htail ⊢
    rw [h a (List.mem_cons_self a as), htail]

theorem goToLower_idem (s : Bytes) : goToLower (goToLower s) = goToLower s := by
  unfold goToLower
  rw [List.map_map]
  induction s with
  | nil => rfl
  | cons a as ih => simp only [List.map_cons, Function.comp_apply, lowerByte_idem, ih]

theorem uitoaAux_bytes : ∀ fuel n b, b ∈ uitoaAux fuel n → 48 ≤ b ∧ b ≤ 57 := by
  intro fuel
  induction fuel with
  | zero => intro n b h; simp [uitoaAux] at h
  | succ fuel ih =>
    intro n b h
    simp only [uitoaAux] at h
    by_cases hn : n < 10
    · simp [hn] at h
      omega
    · simp only [hn, if_false, List.mem_append, List.mem_singleton] at h
      rcases h with h | h
      · exact ih _ _ h
      · omega

theorem uitoa_fixed (n : Nat) : ∀ b ∈ uitoa n, lowerByte b = b := by
  intro b hb
  have := uitoaAux_bytes (n + 1) n b hb
  exact lowerByte_of_not_upper (by omega)

theorem hexDigitB_fixed (v : Nat) : lowerByte (hexDigitB v) = hexDigitB v := by
  unfold hexDigitB
  by_cases hv : v < 10
  · rw [if_pos hv]
    exact lowerByte_of_not_upper (by omega)
  · rw [if_neg hv]
    exact lowerByte_of_not_upper (by omega)

theorem appendHex_fixed (n : Nat) : ∀ b ∈ appendHex n, lowerByte b = b := by
  intro b hb
  unfold appendHex at hb
  by_cases hn : n = 0
  · rw [if_pos hn] at hb
    simp at hb
    subst hb
    decide
  · rw [if_neg hn] at hb
    rcases List.mem_filterMap.mp hb with ⟨j, _, hj⟩
    by_cases hv : n / 16 ^ j > 0
    · simp only [hv, if_pos] at hj
      cases hj
      exact hexDigitB_fixed _
    · simp [hv] at hj

theorem dotted_fixed (q : Bytes) : ∀ b ∈ dotted q, lowerByte b = b := by
  intro b hb
  unfold dotted at hb
  simp only [List.mem_append, List.mem_singleton] at hb
  have h46 : lowerByte 46 = 46 := by decide
  rcases hb with (((((h | h) | h) | h) | h) | h) | h <;>
    first
      | exact uitoa_fixed _ b h
      | (subst h; exact h46)

theorem hexStringBytes_fixed (p : Bytes) : ∀ b ∈ hexStringBytes p, lowerByte b = b := by
  intro b hb
  unfold hexStringBytes at hb
  rcases List.mem_flatten.mp hb with ⟨l, hl, hbl⟩
  rcases List.mem_map.mp hl with ⟨tn, _, htn⟩
  subst htn
  simp only [List.mem_cons, List.not_mem_nil, or_false] at hbl
  rcases hbl with h | h
  · rw [h]
    exact hexDigitB_fixed _
  · rw [h]
    exact hexDigitB_fixed _

theorem v6PrintAux_fixed (p : Bytes) (e0 e1 : Int) :
    ∀ fuel i b, b ∈ v6PrintAux p e0 e1 fuel i → lowerByte b = b := by
  intro fuel
  induction fuel with
  | zero => intro i b h; simp [v6PrintAux] at h
  | succ fuel ih =>
    intro i b h
    simp only [v6PrintAux] at h
    by_cases hi : i < 16
    · rw [if_pos hi] at h
      by_cases he : (i : Int) = e0
      · rw [if_pos he] at h
        simp only [List.mem_cons] at h
        rcases h with h | h | h
        · rw [h]
          decide
        · rw [h]
          decide
        · by_cases h16 : e1 ≥ 16
          · simp [h16] at h
          · rw [if_neg h16] at h
            rcases List.mem_append.mp h with h | h
            · exact appendHex_fixed _ b h
            · exact ih _ b h
      · rw [if_neg he] at h
        rcases List.mem_append.mp h with h | h
        · rcases List.mem_append.mp h with h | h
          · by_cases h0 : i > 0
            · simp [h0] at h
              subst h
              decide
            · simp [h0] at h
          · exact appendHex_fixed _ b h
        · exact ih _ b h
    · rw [if_neg hi] at h
      simp at h

theorem ipString_fixed (p : Bytes) : ∀ b ∈ ipString p, lowerByte b = b := by
  intro b hb
  unfold ipString at hb
  by_cases hp : p.isEmpty
  · rw [if_pos hp] at hb
    have hall : ∀ x ∈ bytes "<nil>", lowerByte x = x := by decide
    exact hall b hb
  · rw [if_neg hp] at hb
    cases h4 : ipTo4 p with
    | some q =>
      rw [h4] at hb
      exact dotted_fixed q b hb
    | none =>
      rw [h4] at hb
      by_cases hlen : ¬ p.length = 16
      · rw [if_pos hlen] at hb
        simp only [List.mem_cons] at hb
        rcases hb with h | h
        · rw [h]
          decide
        · exact hexStringBytes_fixed p b h
      · rw [if_neg hlen] at hb
        exact v6PrintAux_fixed p _ _ 10 0 b hb

theorem processLine_fixed (line : Bytes) : goToLower (processLine line) = processLine line := by
  unfold processLine
  by_cases hp : (goFields line).length > 0
  · simp only [hp, if_pos]
    cases hip : parseIP ((goFields line).getD ((goFields line).length - 1) []) with
    | some ip => exact goToLower_eq_self (ipString_fixed ip)
    | none => exact goToLower_idem _
  · simp [hp]
    rfl

theorem contains_eq_mem {α : Type} [BEq α] [LawfulBEq α] {l : List α} {x : α} :
    l.contains x = true ↔ x ∈ l := by
  simp [List.contains]

theorem dedupKeys_spec {α : Type} [BEq α] [LawfulBEq α] :
    ∀ (seen l : List α), (dedupKeys seen l).Nodup ∧
      (∀ x ∈ dedupKeys seen l, x ∈ l ∧ ¬ x ∈ seen) := by
  intro seen l
  induction l generalizing seen with
  | nil => exact ⟨List.nodup_nil, by intro x hx; simp [dedupKeys] at hx⟩
  | cons e rest ih =>
    by_cases hc : seen.contains e = true
    · have hd : dedupKeys seen (e :: rest) = dedupKeys seen rest := by
        show (if seen.contains e = true then dedupKeys seen rest
          else e :: dedupKeys (e :: seen) rest) = dedupKeys seen rest
        rw [if_pos hc]
      rw [hd]
      refine ⟨(ih seen).1, fun x hx => ?_⟩
      have := (ih seen).2 x hx
      exact ⟨List.mem_cons_of_mem e this.1, this.2⟩
    · have hd : dedupKeys seen (e :: rest) = e :: dedupKeys (e :: seen) rest := by
        show (if seen.contains e = true then dedupKeys seen rest
          else e :: dedupKeys (e :: seen) rest) = e :: dedupKeys (e :: seen) rest
        rw [if_neg hc]
      rw [hd]
      have ihs := ih (e :: seen)
      constructor
      · refine List.nodup_cons.mpr ⟨fun hmem => ?_, ihs.1⟩
        exact (ihs.2 e hmem).2 (List.mem_cons_self e seen)
      · intro x hx
        rcases List.mem_cons.mp hx with rfl | hx2
        · refine ⟨List.mem_cons_self x rest, fun hmem => ?_⟩
          exact hc (contains_eq_mem.mpr hmem)
        · have := ihs.2 x hx2
          exact ⟨List.mem_cons_of_mem e this.1,
            fun hmem => this.2 (List.mem_cons_of_mem e hmem)⟩

theorem createCacheForGroup_invariants (files : List (List Bytes)) :
    List.Sorted ByteLe (createCacheForGroup files) ∧
      (createCacheForGroup files).Nodup ∧
      ∀ e ∈ createCacheForGroup files, goToLower e = e := by
  refine ⟨List.sorted_insertionSort ByteLe _, ?_, ?_⟩
  · exact (List.perm_insertionSort ByteLe _).nodup_iff.mpr
      (dedupKeys_spec [] (files.map processFile).flatten).1
  · intro e he
    have hmem := (List.perm_insertionSort ByteLe _).mem_iff.mp he
    have hflat := ((dedupKeys_spec [] (files.map processFile).flatten).2 e hmem).1
    rcases List.mem_flatten.mp hflat with ⟨l, hl, hel⟩
    rcases List.mem_map.mp hl with ⟨lines, _, hlines⟩
    subst hlines
    rcases List.mem_map.mp hel with ⟨line, _, hline⟩
    subst hline
    exact processLine_fixed line

theorem c1_counterexample :
    specDomainMatches [bytes "example.com"] (bytes "foo.example.com") = true ∧
    Match [(bytes "gr", [bytes "example.com"])] (bytes "foo.example.com") [bytes "gr"] =
      (false, []) ∧
    goToLower (bytes "Foo.com") ∈ [bytes "bar.com", bytes "foo.com"] ∧
    List.Sorted ByteLe [bytes "bar.com", bytes "foo.com"] ∧
    Match [(bytes "gr", [bytes "bar.com", bytes "foo.com"])] (bytes "Foo.com") [bytes "gr"] =
      (false, []) :=
  ⟨by decide, by decide, by decide, by decide, by decide⟩

/-- C1 (amended): for every group cache map whose vectors are sorted and
every already-lowercase queried domain, `ListCache.Match` reports a match if
and only if the exact qname is an element of some listed group's vector;
there is no parent-suffix matching, and queries that are not already
lowercase are not matched case-insensitively. -/
theorem c1_match_amended (gc : List (Bytes × List Bytes)) (d : Bytes) (gs : List Bytes)
    (hs : ∀ g ∈ gs, List.Sorted ByteLe (lookupGroup gc g)) (hd : goToLower d = d) :
    ((Match gc d gs).1 = true ↔ ∃ g ∈ gs, d ∈ lookupGroup gc g) := by
  rw [Match_true_iff]
  constructor
  · rintro ⟨g, hg, hc⟩
    exact ⟨g, hg, hd ▸ contains_true_mem hc⟩
  · rintro ⟨g, hg, hmem⟩
    exact ⟨g, hg, mem_contains_sorted (hs g hg) hd hmem⟩

theorem c1_match_amended_witness :
    ((Match [(bytes "gr", [bytes "bar.com", bytes "foo.com"])] (bytes "foo.com")
        [bytes "gr"]).1 = true ↔
      ∃ g ∈ [bytes "gr"], bytes "foo.com" ∈
        lookupGroup [(bytes "gr", [bytes "bar.com", bytes "foo.com"])] g) :=
  c1_match_amended _ _ _ (by decide) (by decide)

theorem c2_counterexample :
    specLineEntries (bytes "") = [] ∧
    processFile [bytes ""] = [[]] ∧
    specLineEntries (bytes "  #comment") = [] ∧
    processFile [bytes "  #comment"] = [bytes "#comment"] :=
  ⟨by decide, by decide, by decide, by decide⟩

theorem getLast?_eq_getD {α : Type} :
    ∀ (l : List α) (d : α), l ≠ [] → l.getLast? = some (l.getD (l.length - 1) d)
  | [], _, h => absurd rfl h
  | [_], _, _ => rfl
  | a :: b :: t, d, _ => by
    rw [List.getLast?_cons_cons]
    rw [getLast?_eq_getD (b :: t) d (by simp)]
    simp

theorem processLine_eq_amended (line : Bytes) : processLine line = amendedLineEntry line := by
  unfold processLine amendedLineEntry specCanonical
  cases hf : goFields line with
  | nil => simp
  | cons t ts =>
    rw [getLast?_eq_getD (t :: ts) [] (by simp)]
    simp

/-- C2 (amended): for every list of source lines, a line beginning with `#`
(untrimmed) contributes no entry, and every other line contributes exactly
one entry: its last whitespace-separated token in canonical IP text if it
parses as an IP literal and lowercased otherwise, or the empty entry when
the line has no token at all (in particular for empty lines). -/
theorem c2_processing_amended (lines : List Bytes) :
    processFile lines = lines.filterMap
      (fun l => if startsWithHash l then none else some (amendedLineEntry l)) := by
  induction lines with
  | nil => rfl
  | cons l rest ih =>
    cases hh : startsWithHash l with
    | true =>
      have h1 : processFile (l :: rest) = processFile rest := by
        unfold processFile
        simp [hh]
      rw [h1, ih]
      simp [hh]
    | false =>
      have h1 : processFile (l :: rest) = processLine l :: processFile rest := by
        unfold processFile
        simp [hh]
      rw [h1, ih, processLine_eq_amended]
      simp [hh]

theorem c10_match_safety (gc : List (Bytes × List Bytes)) (d : Bytes) (gs : List Bytes)
    (h : ∀ g ∈ gs, ¬ goToLower d ∈ lookupGroup gc g) :
    Match gc d gs = (false, []) ∧
      (∀ (cache : List Bytes) (x : Bytes), searchStrings cache x ≤ cache.length) ∧
      (∀ x : Bytes, contains x [] = false) := by
  refine ⟨?_, searchStrings_le_length, fun x => rfl⟩
  apply Match_eq_false
  intro g hg
  cases hc : contains d (lookupGroup gc g) with
  | false => rfl
  | true => exact absurd (contains_true_mem hc) (h g hg)

theorem c10_match_safety_witness :
    Match [(bytes "g", [bytes "a.com"])] (bytes "b.com") [bytes "g"] = (false, []) ∧
      (∀ (cache : List Bytes) (x : Bytes), searchStrings cache x ≤ cache.length) ∧
      (∀ x : Bytes, contains x [] = false) :=
  c10_match_safety _ _ _ (by decide)

theorem c7_group_cache_invariants (g2l : List (Bytes × List (List Bytes)))
    (gc : Bytes × List Bytes) (hmem : gc ∈ refreshGroups g2l) :
    List.Sorted ByteLe gc.2 ∧ gc.2.Nodup ∧ ∀ e ∈ gc.2, goToLower e = e := by
  rcases List.mem_map.mp hmem with ⟨p, _, hp⟩
  subst hp
  exact createCacheForGroup_invariants p.2

theorem c7_group_cache_invariants_witness :
    List.Sorted ByteLe (createCacheForGroup [[bytes "b.com", bytes "A.com"]]) ∧
      (createCacheForGroup [[bytes "b.com", bytes "A.com"]]).Nodup ∧
      ∀ e ∈ createCacheForGroup [[bytes "b.com", bytes "A.com"]], goToLower e = e :=
  c7_group_cache_invariants [(bytes "g", [[bytes "b.com", bytes "A.com"]])]
    (bytes "g", createCacheForGroup [[bytes "b.com", bytes "A.com"]]) (by decide)

theorem c8_counterexample :
    (0 : Int) < 153722868 ∧ periodicRefreshEnabled 153722868 = false ∧
      effectiveRefreshPeriod 153722868 ≠ 153722868 * nanosPerMinute :=
  ⟨by decide, by decide, by decide⟩

/-- C8 (amended): for configured periods whose nanosecond value fits in 64
bits (|rp| ≤ 153722867 minutes), the refresh cadence is as claimed: 0 means
the 4-hour default with periodic refresh running, negative disables the
periodic refresh (the constructor's initial load always runs), positive
runs it every that many minutes.  Larger magnitudes overflow `int64` and
may invert the sign. -/
theorem c8_refresh_period_amended (rp : Int)
    (h1 : -153722867 ≤ rp) (h2 : rp ≤ 153722867) :
    (rp = 0 → effectiveRefreshPeriod rp = defaultRefreshPeriodNs ∧
      periodicRefreshEnabled rp = true) ∧
    (rp < 0 → periodicRefreshEnabled rp = false) ∧
    (0 < rp → effectiveRefreshPeriod rp = rp * nanosPerMinute ∧
      periodicRefreshEnabled rp = true) := by
  have hwrap : int64wrap (rp * nanosPerMinute) = rp * nanosPerMinute := by
    unfold int64wrap nanosPerMinute
    omega
  refine ⟨?_, ?_, ?_⟩
  · intro h0
    subst h0
    exact ⟨rfl, by decide⟩
  · intro hneg
    unfold periodicRefreshEnabled effectiveRefreshPeriod
    rw [if_neg (by omega), hwrap]
    exact decide_eq_false (by unfold nanosPerMinute; omega)
  · intro hpos
    have heff : effectiveRefreshPeriod rp = rp * nanosPerMinute := by
      unfold effectiveRefreshPeriod
      rw [if_neg (by omega), hwrap]
    refine ⟨heff, ?_⟩
    unfold periodicRefreshEnabled
    rw [heff]
    exact decide_eq_true (by unfold nanosPerMinute; omega)

theorem c8_refresh_period_amended_witness :
    (periodicRefreshEnabled (-3) = false) ∧
      (effectiveRefreshPeriod 5 = 5 * nanosPerMinute ∧ periodicRefreshEnabled 5 = true) :=
  ⟨(c8_refresh_period_amended (-3) (by decide) (by decide)).2.1 (by decide),
    (c8_refresh_period_amended 5 (by decide) (by decide)).2.2 (by decide)⟩

theorem c3_min_ttl_clamp :
    resolveCaching ⟨5, 0⟩
        ⟨⟨RcodeSuccess, [⟨bytes "example.com.", 123, RRType.A, bytes "123.122.121.120"⟩]⟩,
          RType.RESOLVED, ""⟩
        [] 0 (bytes "example.com.") RRType.A =
      (⟨⟨RcodeSuccess, [⟨bytes "example.com.", 300, RRType.A, bytes "123.122.121.120"⟩]⟩,
          RType.RESOLVED, ""⟩,
        [((bytes "example.com.", RRType.A),
          ⟨⟨RcodeSuccess, [⟨bytes "example.com.", 300, RRType.A, bytes "123.122.121.120"⟩]⟩,
            300000⟩)],
        1) ∧
    resolveCaching ⟨5, 0⟩
        ⟨⟨RcodeSuccess, [⟨bytes "example.com.", 123, RRType.A, bytes "123.122.121.120"⟩]⟩,
          RType.RESOLVED, ""⟩
        [((bytes "example.com.", RRType.A),
          ⟨⟨RcodeSuccess, [⟨bytes "example.com.", 300, RRType.A, bytes "123.122.121.120"⟩]⟩,
            300000⟩)]
        500 (bytes "example.com.") RRType.A =
      (⟨⟨RcodeSuccess, [⟨bytes "example.com.", 299, RRType.A, bytes "123.122.121.120"⟩]⟩,
          RType.CACHED, ""⟩,
        [((bytes "example.com.", RRType.A),
          ⟨⟨RcodeSuccess, [⟨bytes "example.com.", 300, RRType.A, bytes "123.122.121.120"⟩]⟩,
            300000⟩)],
        0) :=
  ⟨by decide, by decide⟩

theorem c6_negative_cache :
    resolveCaching ⟨0, 0⟩ ⟨⟨RcodeNameError, []⟩, RType.RESOLVED, ""⟩ [] 0
        (bytes "example.com.") RRType.AAAA =
      (⟨⟨RcodeNameError, []⟩, RType.RESOLVED, ""⟩,
        [((bytes "example.com.", RRType.AAAA), ⟨⟨RcodeNameError, []⟩, 1800000⟩)], 1) ∧
    resolveCaching ⟨0, 0⟩ ⟨⟨RcodeNameError, []⟩, RType.RESOLVED, ""⟩
        [((bytes "example.com.", RRType.AAAA), ⟨⟨RcodeNameError, []⟩, 1800000⟩)] 500
        (bytes "example.com.") RRType.AAAA =
      (⟨⟨RcodeNameError, []⟩, RType.CACHED, "CACHED NEGATIVE"⟩,
        [((bytes "example.com.", RRType.AAAA), ⟨⟨RcodeNameError, []⟩, 1800000⟩)], 0) ∧
    (∀ (msg : Msg) (remaining : Int),
      ((cachedResponse msg remaining).reason = "CACHED NEGATIVE" ↔
        msg.rcode = RcodeNameError)) := by
  refine ⟨by decide, by decide, ?_⟩
  intro msg remaining
  unfold cachedResponse
  by_cases h : msg.rcode = RcodeNameError
  · simp [h]
  · simp [h]
    try decide

theorem c4_whitelist_dominates (cfg : BlockingConfig) (st : BlockingState) (now : Int)
    (next : Response) (clientNames : List String) (clientIP : String)
    (qname : Bytes) (qt : RRType)
    (hen : st.enabled = true) (hqt : qt = RRType.A ∨ qt = RRType.AAAA)
    (_hb : ∃ g ∈ groupsFor cfg.clientGroupsBlock clientNames clientIP,
      specDomainMatches (lookupList cfg.blackLists g) qname = true)
    (hw : ∃ g ∈ groupsFor cfg.clientGroupsBlock clientNames clientIP,
      specDomainMatches (lookupList cfg.whiteLists g) qname = true)
    (hnext : next.rtype = RType.RESOLVED) :
    resolveBlocking cfg st now next clientNames clientIP qname qt = (next, st) ∧
      (resolveBlocking cfg st now next clientNames clientIP qname qt).1.rtype =
        RType.RESOLVED := by
  have hwm : anyWhiteMatch cfg (groupsFor cfg.clientGroupsBlock clientNames clientIP)
      qname = true := by
    rcases hw with ⟨g, hg, hm⟩
    exact List.any_eq_true.mpr ⟨g, hg, hm⟩
  have hae : autoEnable st now = st := by
    unfold autoEnable
    rw [if_pos hen]
  have hmain : resolveBlocking cfg st now next clientNames clientIP qname qt = (next, st) := by
    unfold resolveBlocking
    rw [hae]
    simp [hen, hqt, hwm]
  exact ⟨hmain, by rw [hmain]; exact hnext⟩

theorem c4_whitelist_dominates_witness :
    resolveBlocking
        ⟨[("gr1", [bytes "domain1.com"])], [("gr1", [bytes "domain1.com"])],
          [("default", ["gr1"])], BlockType.ZeroIP⟩
        ⟨true, none⟩ 0 ⟨⟨RcodeSuccess, []⟩, RType.RESOLVED, ""⟩ ["client1"] "1.2.1.2"
        (bytes "domain1.com") RRType.A =
      (⟨⟨RcodeSuccess, []⟩, RType.RESOLVED, ""⟩, ⟨true, none⟩) ∧
    (resolveBlocking
        ⟨[("gr1", [bytes "domain1.com"])], [("gr1", [bytes "domain1.com"])],
          [("default", ["gr1"])], BlockType.ZeroIP⟩
        ⟨true, none⟩ 0 ⟨⟨RcodeSuccess, []⟩, RType.RESOLVED, ""⟩ ["client1"] "1.2.1.2"
        (bytes "domain1.com") RRType.A).1.rtype = RType.RESOLVED :=
  c4_whitelist_dominates _ _ _ _ _ _ _ _ rfl (Or.inl rfl) (by decide) (by decide) rfl

/-! ## Claim C5 -/

theorem resolveBlocking_shape (cfg : BlockingConfig) (st : BlockingState) (now : Int)
    (next : Response) (cns : List String) (cip : String) (qname : Bytes) (qt : RRType) :
    (resolveBlocking cfg st now next cns cip qname qt).1 = next ∨
      ((resolveBlocking cfg st now next cns cip qname qt).1.res =
          blockedMsg cfg.blockType qname qt ∧
        (resolveBlocking cfg st now next cns cip qname qt).1.rtype = RType.BLOCKED) := by
  unfold resolveBlocking postInspect
  dsimp only
  split
  · left
    rfl
  · split
    · left
      rfl
    · split
      · left
        rfl
      · split
        · right
          exact ⟨rfl, rfl⟩
        · split
          · right
            exact ⟨rfl, rfl⟩
          · split
            · left
              rfl
            · split
              · right
                exact ⟨rfl, rfl⟩
              · left
                rfl

/-- C5 (spec-modelled blocking station): whenever the station answers
BLOCKED (the successor's answer being RESOLVED), the synthesized message
depends only on the configured `BlockType` and the qtype: `ZeroIP` gives
Rcode NOERROR and exactly one answer RR for the original qname with TTL
21600 — `0.0.0.0` for A, `::` for AAAA; `NxDomain` gives Rcode NXDOMAIN and
an empty answer section. -/
theorem c5_blocked_synthesis (cfg : BlockingConfig) (st : BlockingState) (now : Int)
    (next : Response) (cns : List String) (cip : String) (qname : Bytes) (qt : RRType)
    (hnext : next.rtype = RType.RESOLVED)
    (hblocked : (resolveBlocking cfg st now next cns cip qname qt).1.rtype = RType.BLOCKED) :
    (resolveBlocking cfg st now next cns cip qname qt).1.res =
      (match cfg.blockType with
       | BlockType.ZeroIP =>
         { rcode := RcodeSuccess
           answers := [{ name := qname, ttl := 21600, rtype := qt
                         rdata := if qt = RRType.A then bytes "0.0.0.0" else bytes "::" }] }
       | BlockType.NxDomain => { rcode := RcodeNameError, answers := [] }) := by
  rcases resolveBlocking_shape cfg st now next cns cip qname qt with h | ⟨hres, _⟩
  · rw [h, hnext] at hblocked
    exact absurd hblocked (by decide)
  · rw [hres]
    cases cfg.blockType with
    | ZeroIP => rfl
    | NxDomain => rfl

theorem c5_blocked_synthesis_witness :
    (resolveBlocking
        ⟨[("defaultGroup", [bytes "blocked3.com"])], [], [("default", ["defaultGroup"])],
          BlockType.ZeroIP⟩
        ⟨true, none⟩ 0 ⟨⟨RcodeSuccess, []⟩, RType.RESOLVED, ""⟩ ["unknown"] "1.2.1.2"
        (bytes "blocked3.com") RRType.A).1.res =
      (match BlockType.ZeroIP with
       | BlockType.ZeroIP =>
         { rcode := RcodeSuccess
           answers := [{ name := bytes "blocked3.com", ttl := 21600, rtype := RRType.A
                         rdata := if RRType.A = RRType.A then bytes "0.0.0.0"
                           else bytes "::" }] }
       | BlockType.NxDomain => { rcode := RcodeNameError, answers := [] }) :=
  c5_blocked_synthesis _ _ _ _ _ _ _ _ rfl (by decide)

theorem c9_control_bad_duration (parseDur : String → Option Int) (now : Int)
    (s : String) (st : BlockingState) (h : parseDur s = none) :
    apiBlockingDisable parseDur now (some s) st = (400, st) := by
  unfold apiBlockingDisable
  dsimp only
  rw [h]

theorem c9_control_bad_duration_witness :
    apiBlockingDisable (fun _ => none) 0 (some "xyz") ⟨true, none⟩ = (400, ⟨true, none⟩) :=
  c9_control_bad_duration (fun _ => none) 0 "xyz" ⟨true, none⟩ rfl

end Blocky
